import Mathlib

/-!
Shallow embedding of the STATS607 multiple-testing simulation study
(`src/statistical_methods.py`, `src/data_generation.py`, `src/config.py`,
`src/performance_metrics.py`, `src/simulation.py`).

Real-valued quantities (p-values, significance levels, signal strengths)
are modelled by `ℚ`; numpy boolean arrays by `List Bool`; numpy float
arrays by `List ℚ`.  A Python `float` result that may be `NaN` is
modelled by `Option ℚ` with `none` standing for `NaN`.  Fallible
functions (assertion failures, unbound locals, broadcasting errors)
return `Except String _`.
-/

namespace Stats607

/-- Number of `true` entries of a boolean vector: `array.sum()` on a
numpy boolean array. -/
def countTrue (l : List Bool) : ℕ :=
  l.count true

/-! ### `src/statistical_methods.py` -/

/-- `bonferroni_method(pvalues, alpha)`: reject hypothesis `i` iff
`pvalues[i] <= alpha / m` where `m = len(pvalues)`. -/
def bonferroni_method (pvalues : List ℚ) (alpha : ℚ) : List Bool :=
  let m := pvalues.length
  let threshold := alpha / m
  pvalues.map (fun p => decide (p ≤ threshold))

/-- `np.argsort(pvalues)`: a permutation of `range m` listing positions
of `pvalues` in ascending order of value. -/
def argsort (pvalues : List ℚ) : List ℕ :=
  List.insertionSort (fun i j => pvalues.getD i 0 ≤ pvalues.getD j 0)
    (List.range pvalues.length)

/-- The `for i in range(m, 0, -1): if pred(i): k = i; break` loop shared
by `hochberg_method` and `benjamini_hochberg_method`: the largest
`i ∈ [1, m]` satisfying `pred`, or `0` when none does. -/
def stepupK : ℕ → (ℕ → Bool) → ℕ
  | 0, _ => 0
  | i + 1, pred => if pred (i + 1) then i + 1 else stepupK i pred

/-- `rejections = np.zeros(m, dtype=bool); rejections[idxs] = True`. -/
def setTrueAt (m : ℕ) (idxs : List ℕ) : List Bool :=
  (List.range m).map (fun j => idxs.contains j)

/-- `hochberg_method(pvalues, alpha)` (`src/statistical_methods.py`
lines 44–78): find the largest `i` with
`sorted_pvalues[i-1] <= alpha / (m + 1 - i)`; if `k > 0`, set
`rejections[sorted_indices[:k+1]] = True`. -/
def hochberg_method (pvalues : List ℚ) (alpha : ℚ) : List Bool :=
  let m := pvalues.length
  let sorted_indices := argsort pvalues
  let sorted_pvalues := sorted_indices.map (fun i => pvalues.getD i 0)
  let k := stepupK m
    (fun i => decide (sorted_pvalues.getD (i - 1) 0 ≤ alpha / ((m + 1 - i : ℕ) : ℚ)))
  setTrueAt m (if 0 < k then sorted_indices.take (k + 1) else [])

/-- `benjamini_hochberg_method(pvalues, q)` (`src/statistical_methods.py`
lines 81–115): find the largest `i` with
`sorted_pvalues[i-1] <= (i / m) * q`; if `k > 0`, set
`rejections[sorted_indices[:k+1]] = True`. -/
def benjamini_hochberg_method (pvalues : List ℚ) (q : ℚ) : List Bool :=
  let m := pvalues.length
  let sorted_indices := argsort pvalues
  let sorted_pvalues := sorted_indices.map (fun i => pvalues.getD i 0)
  let k := stepupK m
    (fun i => decide (sorted_pvalues.getD (i - 1) 0 ≤ ((i : ℚ) / (m : ℚ)) * q))
  setTrueAt m (if 0 < k then sorted_indices.take (k + 1) else [])

/-! ### `src/data_generation.py` -/

/-- `np.round`: round to nearest integer, ties to even (banker's rounding). -/
def roundHalfEven (x : ℚ) : ℤ :=
  if x - ⌊x⌋ = 1/2 then (if Even ⌊x⌋ then ⌊x⌋ else ⌊x⌋ + 1) else round x

/-- `np.round(weights / weights.sum() * m1).astype(int)` for each of the three
distribution codes of `generate_alternative_means`; `none` when the code is
unknown, in which case the Python source leaves the local `counts` unassigned. -/
def rawCounts (m1 : ℕ) (distribution : Char) : Option (List ℤ) :=
  if distribution = 'D' then
    some ([4, 3, 2, 1].map (fun w => roundHalfEven ((w : ℚ) / 10 * m1)))
  else if distribution = 'E' then
    some ([1, 1, 1, 1].map (fun w => roundHalfEven ((w : ℚ) / 4 * m1)))
  else if distribution = 'I' then
    some ([1, 2, 3, 4].map (fun w => roundHalfEven ((w : ℚ) / 10 * m1)))
  else none

/-- `counts[-1] += diff`: add `d` to the last entry. -/
def addToLast : List ℤ → ℤ → List ℤ
  | [], _ => []
  | [c], d => [c + d]
  | c :: c2 :: cs, d => c :: addToLast (c2 :: cs) d

/-- The `for level, count in zip(levels, counts): means.extend([level] * count)`
loop; a non-positive count extends by nothing, as in Python. -/
def buildMeans : List ℚ → List ℤ → List ℚ
  | l :: ls, c :: cs => List.replicate c.toNat l ++ buildMeans ls cs
  | _, _ => []

/-- `generate_alternative_means(m1, L, distribution)`
(`src/data_generation.py` lines 4–50).  Returns `.error` when the
distribution code is unknown and `m1 ≠ 0` (in Python: `UnboundLocalError`
on `counts`). -/
def generate_alternative_means (m1 : ℕ) (L : ℚ) (distribution : Char) :
    Except String (List ℚ) :=
  if m1 = 0 then Except.ok []
  else
    match rawCounts m1 distribution with
    | none => Except.error "UnboundLocalError: local variable counts referenced before assignment"
    | some cs =>
        let levels : List ℚ := [L / 4, L / 2, 3 * L / 4, L]
        let diff : ℤ := (m1 : ℤ) - cs.sum
        let counts : List ℤ := if diff = 0 then cs else addToLast cs diff
        Except.ok (buildMeans levels counts)

/-! ### `src/config.py` -/

/-- The configuration dictionary built by `create_config`. -/
structure Config where
  m : ℤ
  m0 : ℤ
  m1 : ℤ
  distribution : Char
  L : ℚ
  alpha : ℚ
  n_reps : ℤ
  seed : ℤ

/-- `create_config(m, m0, distribution, L, alpha, n_reps, seed)`
(`src/config.py`): sets `m1 = m - m0`, asserts
`distribution in ['D', 'E', 'I']`, and returns the dictionary. -/
def create_config (m m0 : ℤ) (distribution : Char) (L alpha : ℚ)
    (n_reps seed : ℤ) : Except String Config :=
  if distribution = 'D' ∨ distribution = 'E' ∨ distribution = 'I' then
    Except.ok ⟨m, m0, m - m0, distribution, L, alpha, n_reps, seed⟩
  else Except.error "distribution must be D, E, or I"

/-! ### `src/performance_metrics.py` -/

/-- `compute_power(rejections, true_nulls)`: `NaN` (here `none`) when there
are no false nulls, else true positives over number of false nulls. -/
def compute_power (rejections true_nulls : List Bool) : Option ℚ :=
  let false_nulls := true_nulls.map (fun b => !b)
  let n_false_nulls := countTrue false_nulls
  if n_false_nulls = 0 then none
  else some ((countTrue (List.zipWith and rejections false_nulls) : ℚ) / n_false_nulls)

/-- `compute_fdr(rejections, true_nulls)`: `0.0` when there are no
rejections, else false rejections over total rejections. -/
def compute_fdr (rejections true_nulls : List Bool) : Option ℚ :=
  let R := countTrue rejections
  let V := countTrue (List.zipWith and rejections true_nulls)
  if R = 0 then some 0
  else some ((V : ℚ) / R)

/-! ### `src/simulation.py`, `run_simulation_with_base_data` -/

/-- Lines 81–91: `means = np.zeros(m); if m1 > 0: means[m0:] = alt_means`.
The guard `alt.length = m - m0` is numpy's broadcasting check for the
slice assignment. -/
def compose_means (m m0 m1 : ℕ) (L : ℚ) (distribution : Char) :
    Except String (List ℚ) :=
  if 0 < m1 then
    match generate_alternative_means m1 L distribution with
    | Except.error e => Except.error e
    | Except.ok alt =>
        if alt.length = m - m0 then
          Except.ok ((List.replicate m (0 : ℚ)).take m0 ++ alt)
        else Except.error "ValueError: could not broadcast"
  else Except.ok (List.replicate m (0 : ℚ))

/-- The replication loop, lines 107–110: for each row of the pre-generated
base noise, `data = means + base_data[rep, :]` with the same `means`. -/
def replication_data (means : List ℚ) (base_data : List (List ℚ)) :
    List (List ℚ) :=
  base_data.map (fun noise_row => List.zipWith (· + ·) means noise_row)

/-! ### Abbreviations for the step-up predicates -/

/-- The rank-`i` condition checked by `hochberg_method`. -/
def hochPred (pvalues : List ℚ) (alpha : ℚ) : ℕ → Bool :=
  fun i =>
    decide (((argsort pvalues).map (fun j => pvalues.getD j 0)).getD (i - 1) 0 ≤
      alpha / ((pvalues.length + 1 - i : ℕ) : ℚ))

/-- The rank-`i` condition checked by `benjamini_hochberg_method`. -/
def bhPred (pvalues : List ℚ) (q : ℚ) : ℕ → Bool :=
  fun i =>
    decide (((argsort pvalues).map (fun j => pvalues.getD j 0)).getD (i - 1) 0 ≤
      ((i : ℚ) / (pvalues.length : ℚ)) * q)

theorem hochberg_method_eq (pvalues : List ℚ) (alpha : ℚ) :
    hochberg_method pvalues alpha =
      setTrueAt pvalues.length
        (if 0 < stepupK pvalues.length (hochPred pvalues alpha) then
          (argsort pvalues).take (stepupK pvalues.length (hochPred pvalues alpha) + 1)
        else []) :=
  rfl

theorem benjamini_hochberg_method_eq (pvalues : List ℚ) (q : ℚ) :
    benjamini_hochberg_method pvalues q =
      setTrueAt pvalues.length
        (if 0 < stepupK pvalues.length (bhPred pvalues q) then
          (argsort pvalues).take (stepupK pvalues.length (bhPred pvalues q) + 1)
        else []) :=
  rfl

/-! ### Facts about the step-up loop -/

theorem stepupK_le (m : ℕ) (pred : ℕ → Bool) : stepupK m pred ≤ m := by
  induction m with
  | zero => simp [stepupK]
  | succ n ih =>
    rw [stepupK]
    split
    · omega
    · omega

theorem stepupK_pred {m : ℕ} {pred : ℕ → Bool} (h : 0 < stepupK m pred) :
    pred (stepupK m pred) = true := by
  induction m with
  | zero => simp [stepupK] at h
  | succ n ih =>
    rw [stepupK] at h ⊢
    by_cases hp : pred (n + 1)
    · rw [if_pos hp] at h ⊢
      exact hp
    · rw [if_neg hp] at h ⊢
      exact ih h

theorem le_stepupK {m i : ℕ} {pred : ℕ → Bool} (h1 : 0 < i) (h2 : i ≤ m)
    (h : pred i = true) : i ≤ stepupK m pred := by
  induction m with
  | zero => omega
  | succ n ih =>
    rw [stepupK]
    by_cases hp : pred (n + 1)
    · rw [if_pos hp]; omega
    · rw [if_neg hp]
      have hne : i ≠ n + 1 := by
        intro e
        exact hp (e ▸ h)
      exact ih (by omega)

theorem stepupK_mono {m : ℕ} {p1 p2 : ℕ → Bool}
    (h : ∀ i, 0 < i → i ≤ m → p1 i = true → p2 i = true) :
    stepupK m p1 ≤ stepupK m p2 := by
  rcases Nat.eq_zero_or_pos (stepupK m p1) with h0 | hpos
  · omega
  · exact le_stepupK hpos (stepupK_le m p1) (h _ hpos (stepupK_le m p1) (stepupK_pred hpos))

theorem stepupK_eq_zero {m : ℕ} {pred : ℕ → Bool}
    (h : ∀ i, 0 < i → i ≤ m → pred i = false) : stepupK m pred = 0 := by
  by_contra hne
  have hpos : 0 < stepupK m pred := Nat.pos_of_ne_zero hne
  have htrue := stepupK_pred hpos
  rw [h _ hpos (stepupK_le m pred)] at htrue
  exact Bool.false_ne_true htrue

/-! ### Facts about `argsort` and `setTrueAt` -/

theorem argsort_perm (p : List ℚ) : List.Perm (argsort p) (List.range p.length) :=
  List.perm_insertionSort _ _

theorem argsort_length (p : List ℚ) : (argsort p).length = p.length := by
  rw [(argsort_perm p).length_eq, List.length_range]

theorem argsort_nodup (p : List ℚ) : (argsort p).Nodup :=
  ((argsort_perm p).nodup_iff).mpr (List.nodup_range p.length)

theorem mem_argsort {p : List ℚ} {i : ℕ} : i ∈ argsort p ↔ i < p.length := by
  rw [(argsort_perm p).mem_iff, List.mem_range]

theorem countTrue_map (f : ℕ → Bool) (l : List ℕ) :
    countTrue (l.map f) = (l.filter f).length := by
  induction l with
  | nil => rfl
  | cons a l ih =>
    cases h : f a <;>
      simp [countTrue, List.count_cons, h, List.filter_cons] at ih ⊢ <;>
      omega

theorem setTrueAt_count {idxs : List ℕ} {m : ℕ} (hn : idxs.Nodup)
    (hs : ∀ j ∈ idxs, j < m) : countTrue (setTrueAt m idxs) = idxs.length := by
  rw [setTrueAt, countTrue_map]
  have h1 : ((List.range m).filter (fun j => idxs.contains j)).Nodup :=
    List.Nodup.filter _ (List.nodup_range m)
  have hsub1 : ((List.range m).filter (fun j => idxs.contains j)) ⊆ idxs := by
    intro x hx
    rw [List.mem_filter] at hx
    exact List.mem_of_elem_eq_true hx.2
  have hsub2 : idxs ⊆ ((List.range m).filter (fun j => idxs.contains j)) := by
    intro x hx
    rw [List.mem_filter, List.mem_range]
    exact ⟨hs x hx, List.elem_eq_true_of_mem hx⟩
  have l1 := (List.subperm_of_subset h1 hsub1).length_le
  have l2 := (List.subperm_of_subset hn hsub2).length_le
  omega

theorem setTrueAt_getD {m i : ℕ} (idxs : List ℕ) (h : i < m) :
    (setTrueAt m idxs).getD i false = idxs.contains i := by
  have hl : i < ((List.range m).map (fun j => idxs.contains j)).length := by
    simpa using h
  rw [setTrueAt, List.getD_eq_getElem _ _ hl, List.getElem_map, List.getElem_range]

theorem countTrue_stepup (p : List ℚ) (k : ℕ) :
    countTrue (setTrueAt p.length (if 0 < k then (argsort p).take (k + 1) else [])) =
      if 0 < k then min (k + 1) p.length else 0 := by
  split
  · rw [setTrueAt_count ((List.take_sublist _ _).nodup (argsort_nodup p))
      (fun j hj => mem_argsort.mp (List.mem_of_mem_take hj))]
    rw [List.length_take, argsort_length]
  · rw [setTrueAt_count List.nodup_nil (by simp)]
    rfl

theorem sortedPvalues_getD_mem (p : List ℚ) {n : ℕ} (hn : n < p.length) :
    ((argsort p).map (fun i => p.getD i 0)).getD n 0 ∈ p := by
  have hl : n < ((argsort p).map (fun i => p.getD i 0)).length := by
    rw [List.length_map, argsort_length]; exact hn
  have hn' : n < (argsort p).length := by
    rw [argsort_length]; exact hn
  rw [List.getD_eq_getElem _ _ hl, List.getElem_map]
  have hmem : (argsort p)[n] ∈ argsort p := List.getElem_mem _
  have hlt : (argsort p)[n] < p.length := mem_argsort.mp hmem
  rw [List.getD_eq_getElem _ _ hlt]
  exact List.getElem_mem _

theorem bonferroni_getD {p : List ℚ} {alpha : ℚ} {i : ℕ} (h : i < p.length) :
    (bonferroni_method p alpha).getD i false =
      decide (p.getD i 0 ≤ alpha / (p.length : ℚ)) := by
  have hl : i < (bonferroni_method p alpha).length := by
    simpa [bonferroni_method] using h
  rw [bonferroni_method] at hl ⊢
  rw [List.getD_eq_getElem _ _ hl, List.getElem_map, List.getD_eq_getElem _ _ h]

/-! ### Facts about banker's rounding -/

theorem roundHalfEven_nonneg {x : ℚ} (hx : 0 ≤ x) : 0 ≤ roundHalfEven x := by
  rw [roundHalfEven]
  have hfl : (0 : ℤ) ≤ ⌊x⌋ := Int.floor_nonneg.mpr hx
  split
  · split
    · exact hfl
    · omega
  · rw [round_eq]
    apply Int.floor_nonneg.mpr
    linarith

theorem roundHalfEven_add_even (n : ℤ) (x : ℚ) (hn : Even n) :
    roundHalfEven ((n : ℚ) + x) = n + roundHalfEven x := by
  have hfl : ⌊(n : ℚ) + x⌋ = n + ⌊x⌋ := Int.floor_int_add n x
  rw [roundHalfEven, roundHalfEven, hfl]
  have hfr : (n : ℚ) + x - ((n + ⌊x⌋ : ℤ) : ℚ) = x - (⌊x⌋ : ℚ) := by
    push_cast
    ring
  rw [hfr]
  by_cases h12 : x - (⌊x⌋ : ℚ) = 1/2
  · rw [if_pos h12, if_pos h12]
    by_cases h2 : Even ⌊x⌋
    · rw [if_pos h2, if_pos (hn.add h2)]
    · rw [if_neg h2, if_neg (fun hc => h2 ((Int.even_add.mp hc).mp hn))]
      ring
  · rw [if_neg h12, if_neg h12, round_int_add]

theorem floor_natCast_div (a d : ℕ) :
    ⌊(a : ℚ) / (d : ℚ)⌋ = ((a / d : ℕ) : ℤ) := by
  have h := Rat.floor_intCast_div_natCast (a : ℤ) d
  have e1 : (((a : ℤ) : ℚ)) = (a : ℚ) := Int.cast_natCast a
  rw [e1] at h
  rw [h]
  exact (Int.natCast_ediv a d).symm

theorem roundHalfEven_natCast_div (a d : ℕ) (hd : d ≠ 0) :
    roundHalfEven ((a : ℚ) / (d : ℚ)) =
      if 2 * (a % d) = d then
        (if Even (a / d) then ((a / d : ℕ) : ℤ) else ((a / d : ℕ) : ℤ) + 1)
      else (((2 * a + d) / (2 * d) : ℕ) : ℤ) := by
  have hdq : (0 : ℚ) < (d : ℚ) := by
    exact_mod_cast Nat.pos_of_ne_zero hd
  have hnat : (d : ℚ) * ((a / d : ℕ) : ℚ) + ((a % d : ℕ) : ℚ) = (a : ℚ) := by
    exact_mod_cast Nat.div_add_mod a d
  have hfr : (a : ℚ) / d - (((a / d : ℕ) : ℤ) : ℚ) = ((a % d : ℕ) : ℚ) / d := by
    have e : (((a / d : ℕ) : ℤ) : ℚ) = ((a / d : ℕ) : ℚ) := Int.cast_natCast _
    rw [e, eq_div_iff (ne_of_gt hdq), sub_mul, div_mul_cancel₀ _ (ne_of_gt hdq)]
    linarith [hnat]
  have hcond : (((a % d : ℕ) : ℚ) / d = 1/2) ↔ 2 * (a % d) = d := by
    rw [div_eq_iff (ne_of_gt hdq)]
    constructor
    · intro h
      have h2 : ((2 * (a % d) : ℕ) : ℚ) = (d : ℚ) := by
        push_cast
        linarith
      exact_mod_cast h2
    · intro h
      have h2 : ((2 * (a % d) : ℕ) : ℚ) = (d : ℚ) := by exact_mod_cast h
      push_cast at h2
      linarith
  rw [roundHalfEven, floor_natCast_div, hfr]
  by_cases hc : 2 * (a % d) = d
  · rw [if_pos (hcond.mpr hc), if_pos hc]
    by_cases he : Even (a / d)
    · rw [if_pos (Int.even_coe_nat _ |>.mpr he), if_pos he]
    · rw [if_neg (fun hx => he ((Int.even_coe_nat _).mp hx)), if_neg he]
  · rw [if_neg (fun h => hc (hcond.mp h)), if_neg hc, round_eq]
    have harg : (a : ℚ) / d + 1/2 = ((2 * a + d : ℕ) : ℚ) / ((2 * d : ℕ) : ℚ) := by
      have h2d : ((2 * d : ℕ) : ℚ) ≠ 0 := by
        have : (0 : ℚ) < ((2 * d : ℕ) : ℚ) := by
          exact_mod_cast Nat.pos_of_ne_zero (by omega)
        exact ne_of_gt this
      field_simp
      ring
    rw [harg, floor_natCast_div]

theorem sumD_le (m1 : ℕ) :
    roundHalfEven (((4 : ℕ) : ℚ) / 10 * m1) + roundHalfEven (((3 : ℕ) : ℚ) / 10 * m1) +
      roundHalfEven (((2 : ℕ) : ℚ) / 10 * m1) ≤ (m1 : ℤ) := by
  obtain ⟨q, b, hb, rfl⟩ : ∃ q b, b < 20 ∧ m1 = 20 * q + b :=
    ⟨m1 / 20, m1 % 20, Nat.mod_lt _ (by norm_num), by omega⟩
  have e4 : ((4 : ℕ) : ℚ) / 10 * ((20 * q + b : ℕ) : ℚ) =
      (((8 * q : ℕ) : ℤ) : ℚ) + ((4 * b : ℕ) : ℚ) / ((10 : ℕ) : ℚ) := by
    push_cast
    ring
  have e3 : ((3 : ℕ) : ℚ) / 10 * ((20 * q + b : ℕ) : ℚ) =
      (((6 * q : ℕ) : ℤ) : ℚ) + ((3 * b : ℕ) : ℚ) / ((10 : ℕ) : ℚ) := by
    push_cast
    ring
  have e2 : ((2 : ℕ) : ℚ) / 10 * ((20 * q + b : ℕ) : ℚ) =
      (((4 * q : ℕ) : ℤ) : ℚ) + ((2 * b : ℕ) : ℚ) / ((10 : ℕ) : ℚ) := by
    push_cast
    ring
  rw [e4, e3, e2]
  rw [roundHalfEven_add_even _ _ (by exact_mod_cast (⟨4 * q, by ring⟩ : Even (8 * q))),
    roundHalfEven_add_even _ _ (by exact_mod_cast (⟨3 * q, by ring⟩ : Even (6 * q))),
    roundHalfEven_add_even _ _ (by exact_mod_cast (⟨2 * q, by ring⟩ : Even (4 * q)))]
  rw [roundHalfEven_natCast_div _ _ (by norm_num),
    roundHalfEven_natCast_div _ _ (by norm_num),
    roundHalfEven_natCast_div _ _ (by norm_num)]
  interval_cases b <;> norm_num <;> omega

theorem sumE_le (m1 : ℕ) :
    roundHalfEven (((1 : ℕ) : ℚ) / 4 * m1) + roundHalfEven (((1 : ℕ) : ℚ) / 4 * m1) +
      roundHalfEven (((1 : ℕ) : ℚ) / 4 * m1) ≤ (m1 : ℤ) := by
  obtain ⟨q, b, hb, rfl⟩ : ∃ q b, b < 8 ∧ m1 = 8 * q + b :=
    ⟨m1 / 8, m1 % 8, Nat.mod_lt _ (by norm_num), by omega⟩
  have e1 : ((1 : ℕ) : ℚ) / 4 * ((8 * q + b : ℕ) : ℚ) =
      (((2 * q : ℕ) : ℤ) : ℚ) + ((1 * b : ℕ) : ℚ) / ((4 : ℕ) : ℚ) := by
    push_cast
    ring
  rw [e1]
  rw [roundHalfEven_add_even _ _ (by exact_mod_cast (⟨q, by ring⟩ : Even (2 * q)))]
  rw [roundHalfEven_natCast_div _ _ (by norm_num)]
  interval_cases b <;> norm_num <;> omega

theorem sumI_le (m1 : ℕ) :
    roundHalfEven (((1 : ℕ) : ℚ) / 10 * m1) + roundHalfEven (((2 : ℕ) : ℚ) / 10 * m1) +
      roundHalfEven (((3 : ℕ) : ℚ) / 10 * m1) ≤ (m1 : ℤ) := by
  obtain ⟨q, b, hb, rfl⟩ : ∃ q b, b < 20 ∧ m1 = 20 * q + b :=
    ⟨m1 / 20, m1 % 20, Nat.mod_lt _ (by norm_num), by omega⟩
  have e1 : ((1 : ℕ) : ℚ) / 10 * ((20 * q + b : ℕ) : ℚ) =
      (((2 * q : ℕ) : ℤ) : ℚ) + ((1 * b : ℕ) : ℚ) / ((10 : ℕ) : ℚ) := by
    push_cast
    ring
  have e2 : ((2 : ℕ) : ℚ) / 10 * ((20 * q + b : ℕ) : ℚ) =
      (((4 * q : ℕ) : ℤ) : ℚ) + ((2 * b : ℕ) : ℚ) / ((10 : ℕ) : ℚ) := by
    push_cast
    ring
  have e3 : ((3 : ℕ) : ℚ) / 10 * ((20 * q + b : ℕ) : ℚ) =
      (((6 * q : ℕ) : ℤ) : ℚ) + ((3 * b : ℕ) : ℚ) / ((10 : ℕ) : ℚ) := by
    push_cast
    ring
  rw [e1, e2, e3]
  rw [roundHalfEven_add_even _ _ (by exact_mod_cast (⟨q, by ring⟩ : Even (2 * q))),
    roundHalfEven_add_even _ _ (by exact_mod_cast (⟨2 * q, by ring⟩ : Even (4 * q))),
    roundHalfEven_add_even _ _ (by exact_mod_cast (⟨3 * q, by ring⟩ : Even (6 * q)))]
  rw [roundHalfEven_natCast_div _ _ (by norm_num),
    roundHalfEven_natCast_div _ _ (by norm_num),
    roundHalfEven_natCast_div _ _ (by norm_num)]
  interval_cases b <;> norm_num <;> omega

/-! ### Structure of `generate_alternative_means` -/

theorem buildMeans_structure (L : ℚ) (m1 : ℕ) (a b c e : ℤ)
    (ha : 0 ≤ a) (hb : 0 ≤ b) (hc : 0 ≤ c) (habc : a + b + c ≤ (m1 : ℤ)) :
    ∃ c0 c1 c2 : ℕ, c0 + c1 + c2 ≤ m1 ∧
      buildMeans [L/4, L/2, 3*L/4, L]
        (if ((m1 : ℤ) - [a, b, c, e].sum) = 0 then [a, b, c, e]
         else addToLast [a, b, c, e] ((m1 : ℤ) - [a, b, c, e].sum)) =
      List.replicate c0 (L/4) ++ List.replicate c1 (L/2) ++
        List.replicate c2 (3*L/4) ++ List.replicate (m1 - (c0 + c1 + c2)) L := by
  have hsum : [a, b, c, e].sum = a + b + c + e := by
    simp
    ring
  have hcounts : (if ((m1 : ℤ) - [a, b, c, e].sum) = 0 then [a, b, c, e]
      else addToLast [a, b, c, e] ((m1 : ℤ) - [a, b, c, e].sum)) =
      [a, b, c, (m1 : ℤ) - (a + b + c)] := by
    rw [hsum]
    split
    · have he : e = (m1 : ℤ) - (a + b + c) := by omega
      rw [he]
    · simp only [addToLast]
      have he : e + ((m1 : ℤ) - (a + b + c + e)) = (m1 : ℤ) - (a + b + c) := by ring
      rw [he]
  rw [hcounts]
  refine ⟨a.toNat, b.toNat, c.toNat, by omega, ?_⟩
  have hlast : ((m1 : ℤ) - (a + b + c)).toNat = m1 - (a.toNat + b.toNat + c.toNat) := by
    omega
  simp only [buildMeans, hlast, List.append_assoc, List.append_nil]

theorem generate_alternative_means_structure (m1 : ℕ) (L : ℚ) (d : Char)
    (hd : d = 'D' ∨ d = 'E' ∨ d = 'I') :
    ∃ c0 c1 c2 : ℕ, c0 + c1 + c2 ≤ m1 ∧
      generate_alternative_means m1 L d = Except.ok
        (List.replicate c0 (L/4) ++ List.replicate c1 (L/2) ++
          List.replicate c2 (3*L/4) ++ List.replicate (m1 - (c0 + c1 + c2)) L) := by
  by_cases hm : m1 = 0
  · subst hm
    exact ⟨0, 0, 0, le_refl 0, by simp [generate_alternative_means]⟩
  · rcases hd with rfl | rfl | rfl
    · obtain ⟨c0, c1, c2, hle, heq⟩ :=
        buildMeans_structure L m1
          (roundHalfEven (((4 : ℕ) : ℚ) / 10 * m1))
          (roundHalfEven (((3 : ℕ) : ℚ) / 10 * m1))
          (roundHalfEven (((2 : ℕ) : ℚ) / 10 * m1))
          (roundHalfEven (((1 : ℕ) : ℚ) / 10 * m1))
          (roundHalfEven_nonneg (by positivity))
          (roundHalfEven_nonneg (by positivity))
          (roundHalfEven_nonneg (by positivity))
          (sumD_le m1)
      refine ⟨c0, c1, c2, hle, ?_⟩
      rw [generate_alternative_means, if_neg hm]
      have hrc : rawCounts m1 'D' = some
          [roundHalfEven (((4 : ℕ) : ℚ) / 10 * m1),
           roundHalfEven (((3 : ℕ) : ℚ) / 10 * m1),
           roundHalfEven (((2 : ℕ) : ℚ) / 10 * m1),
           roundHalfEven (((1 : ℕ) : ℚ) / 10 * m1)] := by
        rw [rawCounts, if_pos rfl]
        rfl
      rw [hrc]
      exact congrArg Except.ok heq
    · obtain ⟨c0, c1, c2, hle, heq⟩ :=
        buildMeans_structure L m1
          (roundHalfEven (((1 : ℕ) : ℚ) / 4 * m1))
          (roundHalfEven (((1 : ℕ) : ℚ) / 4 * m1))
          (roundHalfEven (((1 : ℕ) : ℚ) / 4 * m1))
          (roundHalfEven (((1 : ℕ) : ℚ) / 4 * m1))
          (roundHalfEven_nonneg (by positivity))
          (roundHalfEven_nonneg (by positivity))
          (roundHalfEven_nonneg (by positivity))
          (sumE_le m1)
      refine ⟨c0, c1, c2, hle, ?_⟩
      rw [generate_alternative_means, if_neg hm]
      have hrc : rawCounts m1 'E' = some
          [roundHalfEven (((1 : ℕ) : ℚ) / 4 * m1),
           roundHalfEven (((1 : ℕ) : ℚ) / 4 * m1),
           roundHalfEven (((1 : ℕ) : ℚ) / 4 * m1),
           roundHalfEven (((1 : ℕ) : ℚ) / 4 * m1)] := by
        rw [rawCounts, if_neg (by decide), if_pos rfl]
        rfl
      rw [hrc]
      exact congrArg Except.ok heq
    · obtain ⟨c0, c1, c2, hle, heq⟩ :=
        buildMeans_structure L m1
          (roundHalfEven (((1 : ℕ) : ℚ) / 10 * m1))
          (roundHalfEven (((2 : ℕ) : ℚ) / 10 * m1))
          (roundHalfEven (((3 : ℕ) : ℚ) / 10 * m1))
          (roundHalfEven (((4 : ℕ) : ℚ) / 10 * m1))
          (roundHalfEven_nonneg (by positivity))
          (roundHalfEven_nonneg (by positivity))
          (roundHalfEven_nonneg (by positivity))
          (sumI_le m1)
      refine ⟨c0, c1, c2, hle, ?_⟩
      rw [generate_alternative_means, if_neg hm]
      have hrc : rawCounts m1 'I' = some
          [roundHalfEven (((1 : ℕ) : ℚ) / 10 * m1),
           roundHalfEven (((2 : ℕ) : ℚ) / 10 * m1),
           roundHalfEven (((3 : ℕ) : ℚ) / 10 * m1),
           roundHalfEven (((4 : ℕ) : ℚ) / 10 * m1)] := by
        rw [rawCounts, if_neg (by decide), if_neg (by decide), if_pos rfl]
        rfl
      rw [hrc]
      exact congrArg Except.ok heq

theorem pairwise_le_replicate (x : ℚ) (n : ℕ) :
    (List.replicate n x).Pairwise (fun a b => a ≤ b) := by
  induction n with
  | zero => simp
  | succ k ih =>
    rw [List.replicate_succ]
    refine List.Pairwise.cons ?_ ih
    intro y hy
    rw [List.eq_of_mem_replicate hy]

theorem sorted_blocks {L : ℚ} (hL : 0 < L) (c0 c1 c2 c3 : ℕ) :
    (List.replicate c0 (L/4) ++ List.replicate c1 (L/2) ++
      List.replicate c2 (3*L/4) ++ List.replicate c3 L).Sorted (fun a b => a ≤ b) := by
  rw [List.append_assoc, List.append_assoc]
  rw [List.Sorted, List.pairwise_append, List.pairwise_append, List.pairwise_append]
  refine ⟨pairwise_le_replicate _ _,
    ⟨pairwise_le_replicate _ _,
      ⟨pairwise_le_replicate _ _, pairwise_le_replicate _ _, ?_⟩, ?_⟩, ?_⟩
  · intro x hx y hy
    rw [List.eq_of_mem_replicate hx, List.eq_of_mem_replicate hy]
    linarith
  · intro x hx y hy
    rw [List.eq_of_mem_replicate hx]
    rcases List.mem_append.mp hy with h | h <;>
      rw [List.eq_of_mem_replicate h] <;> linarith
  · intro x hx y hy
    rw [List.eq_of_mem_replicate hx]
    rcases List.mem_append.mp hy with h | h
    · rw [List.eq_of_mem_replicate h]
      linarith
    · rcases List.mem_append.mp h with h2 | h2 <;>
        rw [List.eq_of_mem_replicate h2] <;> linarith

/-! ### Claim theorems: data generation and config -/

/-- C4: For every `m1`, every `L > 0` and every distribution code in
{D, E, I}, `generate_alternative_means` returns a vector of length exactly
`m1`, sorted ascending, with entries among {L/4, L/2, 3L/4, L}, built as
four per-level blocks whose counts sum to `m1` with the rounding residual
assigned to the last level; for `m1 = 0` it returns the empty vector. -/
theorem generate_alternative_means_spec (m1 : ℕ) (L : ℚ) (d : Char)
    (hd : d = 'D' ∨ d = 'E' ∨ d = 'I') (hL : 0 < L) :
    ∃ means : List ℚ, generate_alternative_means m1 L d = Except.ok means ∧
      means.length = m1 ∧
      means.Sorted (fun a b => a ≤ b) ∧
      (∀ x ∈ means, x = L/4 ∨ x = L/2 ∨ x = 3*L/4 ∨ x = L) ∧
      (∃ c0 c1 c2 : ℕ, c0 + c1 + c2 ≤ m1 ∧
        means = List.replicate c0 (L/4) ++ List.replicate c1 (L/2) ++
          List.replicate c2 (3*L/4) ++ List.replicate (m1 - (c0 + c1 + c2)) L) ∧
      (m1 = 0 → means = []) := by
  obtain ⟨c0, c1, c2, hle, heq⟩ := generate_alternative_means_structure m1 L d hd
  refine ⟨_, heq, ?_, sorted_blocks hL c0 c1 c2 _, ?_, ⟨c0, c1, c2, hle, rfl⟩, ?_⟩
  · simp only [List.length_append, List.length_replicate]
    omega
  · intro x hx
    simp only [List.mem_append, List.mem_replicate] at hx
    tauto
  · intro h0
    subst h0
    have hz : c0 = 0 ∧ c1 = 0 ∧ c2 = 0 := by omega
    obtain ⟨hz0, hz1, hz2⟩ := hz
    subst hz0
    subst hz1
    subst hz2
    simp

/-- Witness for C4 at `m1 = 5`, `L = 4`, distribution `D`. -/
theorem generate_alternative_means_spec_witness :
    ∃ means : List ℚ, generate_alternative_means 5 4 'D' = Except.ok means ∧
      means.length = 5 ∧
      means.Sorted (fun a b => a ≤ b) ∧
      (∀ x ∈ means, x = 4/4 ∨ x = 4/2 ∨ x = 3*4/4 ∨ x = 4) ∧
      (∃ c0 c1 c2 : ℕ, c0 + c1 + c2 ≤ 5 ∧
        means = List.replicate c0 (4/4) ++ List.replicate c1 (4/2) ++
          List.replicate c2 (3*4/4) ++ List.replicate (5 - (c0 + c1 + c2)) 4) ∧
      (5 = 0 → means = []) :=
  generate_alternative_means_spec 5 4 'D' (Or.inl rfl) (by norm_num)

/-- C10: For `m1 ≥ 1`, `generate_alternative_means` fails with an
unbound-local error on any distribution code other than D, E or I; it
never returns a vector. -/
theorem generate_alternative_means_unknown (m1 : ℕ) (L : ℚ) (d : Char)
    (h1 : 1 ≤ m1) (hD : d ≠ 'D') (hE : d ≠ 'E') (hI : d ≠ 'I') :
    generate_alternative_means m1 L d =
      Except.error "UnboundLocalError: local variable counts referenced before assignment" := by
  have hm : ¬ m1 = 0 := by omega
  rw [generate_alternative_means, if_neg hm, rawCounts, if_neg hD, if_neg hE, if_neg hI]

/-- Witness for C10 at `m1 = 1`, distribution code `'X'`. -/
theorem generate_alternative_means_unknown_witness :
    generate_alternative_means 1 1 'X' =
      Except.error "UnboundLocalError: local variable counts referenced before assignment" :=
  generate_alternative_means_unknown 1 1 'X' (by norm_num) (by decide) (by decide)
    (by decide)

/-- C5 counterexample: With a valid distribution code,
`create_config` accepts `m0 = 10 > m = 5` together with a negative `L`,
a negative `alpha` and a negative `n_reps`, returning a config (with
`m1 = -5`) instead of failing. -/
theorem create_config_counterexample :
    create_config 5 10 'D' (-1) (-1) (-1) 123456789 =
      Except.ok ⟨5, 10, -5, 'D', -1, -1, -1, 123456789⟩ := by
  rw [create_config, if_pos (Or.inl rfl)]
  norm_num

/-- C5 amended: `create_config` validates only the distribution code:
it fails iff the code is not D, E or I, and otherwise returns the config
with every field stored exactly as passed (`m1 = m - m0`), with no
validation of `m0`, `n_reps`, `alpha` or `L`. -/
theorem create_config_spec (m m0 : ℤ) (d : Char) (L alpha : ℚ)
    (n_reps seed : ℤ) :
    (d = 'D' ∨ d = 'E' ∨ d = 'I' →
      create_config m m0 d L alpha n_reps seed =
        Except.ok ⟨m, m0, m - m0, d, L, alpha, n_reps, seed⟩) ∧
    (¬(d = 'D' ∨ d = 'E' ∨ d = 'I') →
      create_config m m0 d L alpha n_reps seed =
        Except.error "distribution must be D, E, or I") := by
  constructor
  · intro h
    rw [create_config, if_pos h]
  · intro h
    rw [create_config, if_neg h]

/-- Witness for the amended C5: a valid call stores its fields unchanged. -/
theorem create_config_spec_witness :
    create_config 100 50 'E' 5 (1/20) 20000 123456789 =
      Except.ok ⟨100, 50, 100 - 50, 'E', 5, 1/20, 20000, 123456789⟩ :=
  (create_config_spec 100 50 'E' 5 (1/20) 20000 123456789).1 (Or.inr (Or.inl rfl))

/-! ### Threshold comparison -/

theorem hoch_thr_le_bh_thr {m i : ℕ} {alpha : ℚ} (ha : 0 ≤ alpha)
    (h1 : 0 < i) (h2 : i ≤ m) :
    alpha / ((m + 1 - i : ℕ) : ℚ) ≤ ((i : ℚ) / (m : ℚ)) * alpha := by
  have hm : 0 < m := lt_of_lt_of_le h1 h2
  have hcast : ((m + 1 - i : ℕ) : ℚ) = (m : ℚ) + 1 - (i : ℚ) := by
    have : i ≤ m + 1 := by omega
    push_cast [Nat.cast_sub this]
    ring
  rw [hcast]
  have hb : (0 : ℚ) < (m : ℚ) := by exact_mod_cast hm
  have hab : (i : ℚ) ≤ (m : ℚ) := by exact_mod_cast h2
  have ha1 : (1 : ℚ) ≤ (i : ℚ) := by exact_mod_cast h1
  have hd : (0 : ℚ) < (m : ℚ) + 1 - (i : ℚ) := by linarith
  rw [div_mul_eq_mul_div, div_le_div_iff₀ hd hb]
  nlinarith [mul_nonneg ha (mul_nonneg (sub_nonneg.mpr ha1) (sub_nonneg.mpr hab))]

/-! ### Claim theorems: the multiple-testing procedures -/

/-- C6: For every p-value vector and alpha, `bonferroni_method` rejects
index `i` iff `p_i ≤ alpha / m` (boundary inclusive); and on
`[0.001, 0.004, 0.010, 0.020, 0.050]` with `alpha = 0.05` it rejects
exactly 3 hypotheses. -/
theorem bonferroni_method_spec :
    (∀ (p : List ℚ) (alpha : ℚ) (i : ℕ), i < p.length →
      ((bonferroni_method p alpha).getD i false = true ↔
        p.getD i 0 ≤ alpha / (p.length : ℚ))) ∧
    countTrue (bonferroni_method [1/1000, 1/250, 1/100, 1/50, 1/20] (1/20)) = 3 := by
  constructor
  · intro p alpha i hi
    rw [bonferroni_getD hi, decide_eq_true_eq]
  · norm_num [bonferroni_method, countTrue, List.count_cons]

/-- Witness for C6 at `i = 2` of the concrete example: `p_2 = 0.010` is
rejected since `0.010 ≤ 0.05 / 5`. -/
theorem bonferroni_method_spec_witness :
    (bonferroni_method [1/1000, 1/250, 1/100, 1/50, 1/20] (1/20)).getD 2 false = true ↔
      ([1/1000, 1/250, 1/100, 1/50, 1/20] : List ℚ).getD 2 0 ≤
        (1/20) / (([1/1000, 1/250, 1/100, 1/50, 1/20] : List ℚ).length : ℚ) :=
  bonferroni_method_spec.1 [1/1000, 1/250, 1/100, 1/50, 1/20] (1/20) 2 (by norm_num)

/-- C1: The code rejects `sorted_indices[:k+1]`, i.e. one more hypothesis
than the largest passing rank `k`, contradicting the claim (and the repo's
own `test_bh_simple_case`): on the test vector the largest rank `i` with
`p_(i) ≤ (i/m)·q` is 4, yet `benjamini_hochberg_method` makes 5 rejections;
on `[0.01, 1]` the largest Hochberg rank is 1, yet `hochberg_method` makes
2 rejections. -/
theorem stepup_rejects_one_extra :
    stepupK 10 (bhPred [1/1000, 1/250, 1/100, 1/50, 1/20, 1/10, 1/5, 1/2, 4/5, 9/10]
      (1/20)) = 4 ∧
    countTrue (benjamini_hochberg_method
      [1/1000, 1/250, 1/100, 1/50, 1/20, 1/10, 1/5, 1/2, 4/5, 9/10] (1/20)) = 5 ∧
    stepupK 2 (hochPred [1/100, 1] (1/20)) = 1 ∧
    countTrue (hochberg_method [1/100, 1] (1/20)) = 2 := by
  refine ⟨?_, ?_, ?_, ?_⟩
  · norm_num [bhPred, stepupK, argsort, List.insertionSort, List.orderedInsert,
      List.range_succ]
  · norm_num [benjamini_hochberg_method, countTrue, List.count_cons, argsort,
      List.insertionSort, List.orderedInsert, List.range_succ, stepupK, setTrueAt]
  · norm_num [hochPred, stepupK, argsort, List.insertionSort, List.orderedInsert,
      List.range_succ]
  · norm_num [hochberg_method, countTrue, List.count_cons, argsort,
      List.insertionSort, List.orderedInsert, List.range_succ, stepupK, setTrueAt]

/-- C2 counterexample: On `[0.01, 0.03, 1]` with `alpha = 0.05`, BH makes
3 rejections while Hochberg makes 2, so the BH rejection count is *not*
less than or equal to the Hochberg rejection count. -/
theorem bh_le_hochberg_counterexample :
    ¬ countTrue (benjamini_hochberg_method [1/100, 3/100, 1] (1/20)) ≤
        countTrue (hochberg_method [1/100, 3/100, 1] (1/20)) := by
  have h1 : countTrue (benjamini_hochberg_method [1/100, 3/100, 1] (1/20)) = 3 := by
    norm_num [benjamini_hochberg_method, countTrue, List.count_cons, argsort,
      List.insertionSort, List.orderedInsert, List.range_succ, stepupK, setTrueAt]
  have h2 : countTrue (hochberg_method [1/100, 3/100, 1] (1/20)) = 2 := by
    norm_num [hochberg_method, countTrue, List.count_cons, argsort,
      List.insertionSort, List.orderedInsert, List.range_succ, stepupK, setTrueAt]
  rw [h1, h2]
  omega

/-- C2 amended: For every vector of (nonnegative) p-values and every
alpha, the Hochberg rejection count is less than or equal to the BH
rejection count: the domination goes the other way round. -/
theorem hochberg_count_le_bh_count (p : List ℚ) (alpha : ℚ)
    (hp : ∀ x ∈ p, 0 ≤ x) :
    countTrue (hochberg_method p alpha) ≤
      countTrue (benjamini_hochberg_method p alpha) := by
  rw [hochberg_method_eq, benjamini_hochberg_method_eq, countTrue_stepup,
    countTrue_stepup]
  rcases le_or_lt 0 alpha with ha | ha
  · have hmono : stepupK p.length (hochPred p alpha) ≤
        stepupK p.length (bhPred p alpha) := by
      apply stepupK_mono
      intro i hi1 hi2 hh
      simp only [hochPred, decide_eq_true_eq] at hh
      simp only [bhPred, decide_eq_true_eq]
      exact le_trans hh (hoch_thr_le_bh_thr ha hi1 hi2)
    split
    · rw [if_pos (lt_of_lt_of_le (by assumption) hmono)]
      omega
    · split
      · omega
      · omega
  · have hz : ∀ pred : ℕ → Bool,
        (∀ i, 0 < i → i ≤ p.length → pred i = false) → stepupK p.length pred = 0 :=
      fun _ => stepupK_eq_zero
    have hsp : ∀ i, 0 < i → i ≤ p.length →
        (0 : ℚ) ≤ ((argsort p).map (fun j => p.getD j 0)).getD (i - 1) 0 := by
      intro i hi1 hi2
      exact hp _ (sortedPvalues_getD_mem p (by omega))
    have hzH : stepupK p.length (hochPred p alpha) = 0 := by
      apply stepupK_eq_zero
      intro i hi1 hi2
      simp only [hochPred, decide_eq_false_iff_not]
      intro hle
      have hd : (0 : ℚ) < ((p.length + 1 - i : ℕ) : ℚ) := by
        have : 0 < p.length + 1 - i := by omega
        exact_mod_cast this
      have hneg : alpha / ((p.length + 1 - i : ℕ) : ℚ) < 0 :=
        div_neg_of_neg_of_pos ha hd
      have := hsp i hi1 hi2
      linarith
    have hzB : stepupK p.length (bhPred p alpha) = 0 := by
      apply stepupK_eq_zero
      intro i hi1 hi2
      simp only [bhPred, decide_eq_false_iff_not]
      intro hle
      have hm : 0 < p.length := lt_of_lt_of_le hi1 hi2
      have hipos : (0 : ℚ) < (i : ℚ) := by exact_mod_cast hi1
      have hmpos : (0 : ℚ) < (p.length : ℚ) := by exact_mod_cast hm
      have hneg : ((i : ℚ) / (p.length : ℚ)) * alpha < 0 :=
        mul_neg_of_pos_of_neg (div_pos hipos hmpos) ha
      have := hsp i hi1 hi2
      linarith
    rw [hzH, hzB]

/-- C3: Every index rejected by `bonferroni_method` is also rejected by
`hochberg_method` and by `benjamini_hochberg_method` on the same
(p-values, alpha). -/
theorem bonferroni_subset_stepup (p : List ℚ) (alpha : ℚ) (i : ℕ)
    (hp : ∀ x ∈ p, 0 ≤ x) (hi : i < p.length)
    (hb : (bonferroni_method p alpha).getD i false = true) :
    (hochberg_method p alpha).getD i false = true ∧
    (benjamini_hochberg_method p alpha).getD i false = true := by
  rw [bonferroni_getD hi, decide_eq_true_eq] at hb
  have hm : 0 < p.length := by omega
  have hpi : 0 ≤ p.getD i 0 := by
    rw [List.getD_eq_getElem _ _ hi]
    exact hp _ (List.getElem_mem _)
  have hmq : (0 : ℚ) < (p.length : ℚ) := by exact_mod_cast hm
  have ha : 0 ≤ alpha := by
    by_contra hneg
    push_neg at hneg
    have : alpha / (p.length : ℚ) < 0 := div_neg_of_neg_of_pos hneg hmq
    linarith
  obtain ⟨pos, hpos⟩ := List.mem_iff_get.mp (mem_argsort.mpr hi)
  rw [List.get_eq_getElem] at hpos
  have hn : pos.val < p.length :=
    lt_of_lt_of_le pos.isLt (le_of_eq (argsort_length p))
  have hpos' : ∀ h : pos.val < (argsort p).length, (argsort p)[pos.val] = i :=
    fun _ => hpos
  have hsp : ((argsort p).map (fun j => p.getD j 0)).getD pos.val 0 = p.getD i 0 := by
    have hl : pos.val < ((argsort p).map (fun j => p.getD j 0)).length := by
      rw [List.length_map]; exact pos.isLt
    rw [List.getD_eq_getElem _ _ hl, List.getElem_map, hpos']
  have hfinish : ∀ pred : ℕ → Bool, pred (pos.val + 1) = true →
      (setTrueAt p.length
        (if 0 < stepupK p.length pred then
          (argsort p).take (stepupK p.length pred + 1) else [])).getD i false = true := by
    intro pred hpred
    have hk : pos.val + 1 ≤ stepupK p.length pred :=
      le_stepupK (by omega) (by omega) hpred
    rw [if_pos (by omega), setTrueAt_getD _ hi]
    apply List.elem_eq_true_of_mem
    have hl : pos.val < ((argsort p).take (stepupK p.length pred + 1)).length := by
      rw [List.length_take]
      have := pos.isLt
      omega
    have he : ((argsort p).take (stepupK p.length pred + 1))[pos.val] = i := by
      rw [List.getElem_take]
      exact hpos' _
    rw [← he]
    exact List.getElem_mem _
  constructor
  · rw [hochberg_method_eq]
    apply hfinish
    simp only [hochPred, decide_eq_true_eq]
    have e1 : pos.val + 1 - 1 = pos.val := rfl
    have e2 : p.length + 1 - (pos.val + 1) = p.length - pos.val := by omega
    rw [e1, e2, hsp]
    refine le_trans hb ?_
    have hc : (0 : ℚ) < ((p.length - pos.val : ℕ) : ℚ) := by
      have : 0 < p.length - pos.val := by omega
      exact_mod_cast this
    have hcb : ((p.length - pos.val : ℕ) : ℚ) ≤ (p.length : ℚ) := by
      exact_mod_cast Nat.sub_le p.length pos.val
    gcongr
  · rw [benjamini_hochberg_method_eq]
    apply hfinish
    simp only [bhPred, decide_eq_true_eq]
    have e1 : pos.val + 1 - 1 = pos.val := rfl
    rw [e1, hsp]
    refine le_trans hb ?_
    have h1n : (1 : ℚ) ≤ ((pos.val + 1 : ℕ) : ℚ) := by
      exact_mod_cast Nat.one_le_iff_ne_zero.mpr (Nat.succ_ne_zero pos.val)
    calc alpha / (p.length : ℚ) = ((1 : ℚ) / (p.length : ℚ)) * alpha := by ring
    _ ≤ (((pos.val + 1 : ℕ) : ℚ) / (p.length : ℚ)) * alpha := by gcongr

/-- Witness for C3 on `[0.001, 0.004, 0.010, 0.020, 0.050]`, `alpha = 0.05`,
index 0: Bonferroni rejects it, hence so do Hochberg and BH. -/
theorem bonferroni_subset_stepup_witness :
    (hochberg_method [1/1000, 1/250, 1/100, 1/50, 1/20] (1/20)).getD 0 false = true ∧
    (benjamini_hochberg_method [1/1000, 1/250, 1/100, 1/50, 1/20] (1/20)).getD 0 false
      = true := by
  apply bonferroni_subset_stepup [1/1000, 1/250, 1/100, 1/50, 1/20] (1/20) 0
  · intro x hx
    fin_cases hx <;> norm_num
  · norm_num
  · norm_num [bonferroni_method]

/-- Witness for the amended C2 on `[0.01, 0.03, 1]`, `alpha = 0.05`. -/
theorem hochberg_count_le_bh_count_witness :
    countTrue (hochberg_method [1/100, 3/100, 1] (1/20)) ≤
      countTrue (benjamini_hochberg_method [1/100, 3/100, 1] (1/20)) := by
  apply hochberg_count_le_bh_count
  intro x hx
  fin_cases hx <;> norm_num

/-! ### Claim theorems: performance metrics -/

theorem countTrue_zipWith_and_le (a b : List Bool) :
    countTrue (List.zipWith and a b) ≤ countTrue b := by
  induction a generalizing b with
  | nil => simp [countTrue]
  | cons x xs ih =>
    cases b with
    | nil => simp [countTrue]
    | cons y ys =>
      rw [List.zipWith_cons_cons]
      cases x <;> cases y <;>
        simp only [countTrue, List.count_cons, Bool.false_and, Bool.true_and] <;>
        have := ih ys <;>
        simp [countTrue] at this ⊢ <;>
        omega

/-- C7: `compute_fdr` returns exactly `0.0` (not `NaN`) when there are
no rejections, and otherwise the number of rejected true nulls over the
total number of rejections. -/
theorem compute_fdr_spec (rejections true_nulls : List Bool)
    (_hlen : rejections.length = true_nulls.length) :
    (countTrue rejections = 0 → compute_fdr rejections true_nulls = some 0) ∧
    (0 < countTrue rejections →
      compute_fdr rejections true_nulls =
        some ((countTrue (List.zipWith and rejections true_nulls) : ℚ) /
          (countTrue rejections : ℚ))) := by
  constructor
  · intro h
    rw [compute_fdr]
    exact if_pos h
  · intro h
    rw [compute_fdr]
    exact if_neg (by omega)

/-- Witness for C7: no rejections gives FDR exactly 0. -/
theorem compute_fdr_spec_witness :
    compute_fdr [false, false] [true, false] = some 0 :=
  (compute_fdr_spec [false, false] [true, false] rfl).1 (by decide)

/-- C8: `compute_power` returns `NaN` (here `none`, not zero) when
there are no false nulls, and otherwise the number of correctly rejected
false nulls over the number of false nulls, a value in `[0, 1]`. -/
theorem compute_power_spec (rejections true_nulls : List Bool)
    (_hlen : rejections.length = true_nulls.length) :
    (countTrue (true_nulls.map (fun b => !b)) = 0 →
      compute_power rejections true_nulls = none) ∧
    (0 < countTrue (true_nulls.map (fun b => !b)) →
      ∃ v : ℚ, compute_power rejections true_nulls = some v ∧
        v = (countTrue (List.zipWith and rejections (true_nulls.map (fun b => !b))) : ℚ) /
          (countTrue (true_nulls.map (fun b => !b)) : ℚ) ∧
        0 ≤ v ∧ v ≤ 1) := by
  constructor
  · intro h
    rw [compute_power]
    exact if_pos h
  · intro h
    refine ⟨_, ?_, rfl, ?_, ?_⟩
    · rw [compute_power]
      exact if_neg (by omega)
    · positivity
    · rw [div_le_one (by exact_mod_cast h)]
      exact_mod_cast countTrue_zipWith_and_le rejections (true_nulls.map (fun b => !b))

/-- Witness for C8: one false null, correctly rejected, gives power 1. -/
theorem compute_power_spec_witness :
    ∃ v : ℚ, compute_power [true, false] [false, true] = some v ∧
      v = (countTrue (List.zipWith and [true, false]
            (([false, true] : List Bool).map (fun b => !b))) : ℚ) /
          (countTrue (([false, true] : List Bool).map (fun b => !b)) : ℚ) ∧
      0 ≤ v ∧ v ≤ 1 :=
  (compute_power_spec [true, false] [false, true] rfl).2 (by decide)

/-! ### Claim theorem: the simulation loop -/

/-- C9: In `run_simulation_with_base_data` the mean vector is fixed
before the loop: its first `m0` entries are 0, its remaining `m1` entries
are the `generate_alternative_means` output, and the test statistic of
replication `r` is the elementwise sum of that one fixed mean vector with
row `r` of the base noise — only the noise varies with `r`. -/
theorem run_simulation_means_fixed (m m0 m1 : ℕ) (L : ℚ) (d : Char)
    (hsum : m0 + m1 = m) (hd : d = 'D' ∨ d = 'E' ∨ d = 'I') :
    ∃ means : List ℚ, compose_means m m0 m1 L d = Except.ok means ∧
      means.length = m ∧
      means.take m0 = List.replicate m0 0 ∧
      (∃ alt : List ℚ, generate_alternative_means m1 L d = Except.ok alt ∧
        alt.length = m1 ∧ means.drop m0 = alt) ∧
      ∀ (base_data : List (List ℚ)) (r : ℕ),
        (replication_data means base_data).getD r [] =
          List.zipWith (· + ·) means (base_data.getD r []) := by
  obtain ⟨c0, c1, c2, hle, heq⟩ := generate_alternative_means_structure m1 L d hd
  have haltlen : (List.replicate c0 (L/4) ++ List.replicate c1 (L/2) ++
      List.replicate c2 (3*L/4) ++
      List.replicate (m1 - (c0 + c1 + c2)) L).length = m1 := by
    simp only [List.length_append, List.length_replicate]
    omega
  have hrow : ∀ (means : List ℚ) (base_data : List (List ℚ)) (r : ℕ),
      (replication_data means base_data).getD r [] =
        List.zipWith (· + ·) means (base_data.getD r []) := by
    intro means base_data r
    by_cases hr : r < base_data.length
    · have hr' : r < (replication_data means base_data).length := by
        simpa [replication_data] using hr
      rw [List.getD_eq_getElem _ _ hr']
      simp only [replication_data, List.getElem_map]
      rw [List.getD_eq_getElem _ _ hr]
    · rw [List.getD_eq_default _ _ (by simpa [replication_data] using Nat.le_of_not_lt hr),
        List.getD_eq_default _ _ (Nat.le_of_not_lt hr)]
      simp
  by_cases hm1 : 0 < m1
  · refine ⟨(List.replicate m (0 : ℚ)).take m0 ++
      (List.replicate c0 (L/4) ++ List.replicate c1 (L/2) ++
        List.replicate c2 (3*L/4) ++ List.replicate (m1 - (c0 + c1 + c2)) L),
      ?_, ?_, ?_, ?_, hrow _⟩
    · rw [compose_means, if_pos hm1, heq]
      exact if_pos (by rw [haltlen]; omega)
    · rw [List.length_append, List.length_take, List.length_replicate, haltlen]
      omega
    · rw [List.take_replicate, min_eq_left (by omega : m0 ≤ m)]
      refine List.take_left' ?_
      rw [List.length_replicate]
    · refine ⟨_, heq, haltlen, ?_⟩
      refine List.drop_left' ?_
      rw [List.length_take, List.length_replicate]
      omega
  · have hm0 : m1 = 0 := by omega
    subst hm0
    have hz : c0 = 0 ∧ c1 = 0 ∧ c2 = 0 := by omega
    obtain ⟨hz0, hz1, hz2⟩ := hz
    subst hz0
    subst hz1
    subst hz2
    simp only [List.replicate_zero, List.nil_append, List.append_nil, Nat.sub_zero] at heq
    refine ⟨List.replicate m (0 : ℚ), ?_, ?_, ?_, ?_, hrow _⟩
    · rw [compose_means, if_neg hm1]
    · rw [List.length_replicate]
    · rw [List.take_replicate, min_eq_left (by omega : m0 ≤ m)]
    · refine ⟨[], by simpa using heq, rfl, ?_⟩
      rw [List.drop_replicate]
      have : m - m0 = 0 := by omega
      rw [this, List.replicate_zero]

/-- Witness for C9 at `m = 2`, `m0 = 1`, `m1 = 1`, `L = 4`,
distribution `E`. -/
theorem run_simulation_means_fixed_witness :
    ∃ means : List ℚ, compose_means 2 1 1 4 'E' = Except.ok means ∧
      means.length = 2 ∧
      means.take 1 = List.replicate 1 0 ∧
      (∃ alt : List ℚ, generate_alternative_means 1 4 'E' = Except.ok alt ∧
        alt.length = 1 ∧ means.drop 1 = alt) ∧
      ∀ (base_data : List (List ℚ)) (r : ℕ),
        (replication_data means base_data).getD r [] =
          List.zipWith (· + ·) means (base_data.getD r []) :=
  run_simulation_means_fixed 2 1 1 4 'E' (by norm_num) (Or.inr (Or.inl rfl))

end Stats607
